import Mathlib

/-!
Verification of the Dawid–Skene EM estimator in
`src/run_approach/dawid_skene.py`.

The program works on dense numpy arrays; we embed them as functions out of
`Fin` types with exact rational entries (the Python code only ever divides,
multiplies, adds and exponentiates nonnegative values, so ℚ is a faithful
idealisation of its float arithmetic away from rounding).  The class set is
the fixed list `[0, 1]` of the source (`read_input_data` hard-codes
`classes = [0,1]`), so class indices live in `Fin 2`.  Counts are natural
numbers (the code builds them by `+= 1` from zero).

The label-type configuration is represented by its single consumed option
`AM_noise : ℕ` (the code reads `label_type[1]["AM_noise"]`).
-/

namespace DawidSkene

/-- Blind-spot trigger condition shared by `initialize` and `e_step` in the
source: `(label_type[1]["AM_noise"] == 0 and counts[p,:,1] > 0) or
(label_type[1]["AM_noise"] == 2 and gold_data[p] > 0)`.  In the source the
per-observer slice `counts[p,:,1]` is truthy exactly when the (single)
observer has a positive class-1 count; we model the slice test as an
existential over observers. -/
def blindspot {nP nK : ℕ} (AM : ℕ) (counts : Fin nP → Fin nK → Fin 2 → ℕ)
    (gold : Fin nP → ℕ) (i : Fin nP) : Prop :=
  (AM = 0 ∧ ∃ k, 0 < counts i k 1) ∨ (AM = 2 ∧ 0 < gold i)

instance {nP nK : ℕ} (AM : ℕ) (counts : Fin nP → Fin nK → Fin 2 → ℕ)
    (gold : Fin nP → ℕ) (i : Fin nP) : Decidable (blindspot AM counts gold i) := by
  unfold blindspot
  infer_instance

/-- Per-patient per-class totals over observers:
`response_sums = np.sum(counts, 1)` in the source initializer. -/
def response_sums {nP nK : ℕ} (counts : Fin nP → Fin nK → Fin 2 → ℕ)
    (i : Fin nP) (j : Fin 2) : ℕ :=
  ∑ k, counts i k j

/-- Embedding of the source function `initialize` (the name itself is a
reserved word here): per patient, the blind-spot override forces the row to
`[0, 1]`; otherwise the proportional average `response_sums[p,:] / p_sum`
when `p_sum > 0`, and the row stays at its zero initialisation otherwise. -/
def init_patient_classes {nP nK : ℕ} (AM : ℕ) (counts : Fin nP → Fin nK → Fin 2 → ℕ)
    (gold : Fin nP → ℕ) : Fin nP → Fin 2 → ℚ := fun i j =>
  if blindspot AM counts gold i then (if j = 1 then 1 else 0)
  else
    if 0 < ∑ j', response_sums counts i j' then
      (response_sums counts i j : ℚ) / ((∑ j', response_sums counts i j' : ℕ) : ℚ)
    else 0

/-- Class marginals of `m_step`:
`class_marginals = np.sum(patient_classes,0)/float(nPatients)`. -/
def class_marginals {nP : ℕ} (patient_classes : Fin nP → Fin 2 → ℚ) (j : Fin 2) : ℚ :=
  (∑ i, patient_classes i j) / (nP : ℚ)

/-- Unnormalised error-rate entry of `m_step`:
`error_rates[k, j, l] = np.dot(patient_classes[:,j], counts[:,k,l])`. -/
def error_rates_dot {nP nK : ℕ} (counts : Fin nP → Fin nK → Fin 2 → ℕ)
    (patient_classes : Fin nP → Fin 2 → ℚ) (k : Fin nK) (j l : Fin 2) : ℚ :=
  ∑ i, patient_classes i j * (counts i k l : ℚ)

/-- Error rates of `m_step`: for `AM_noise == 0` and true class `0` the row
is forced to `[1, 0]`; otherwise the dot-product row, divided by its sum
when that sum is positive and left as the raw dot products otherwise. -/
def error_rates {nP nK : ℕ} (AM : ℕ) (counts : Fin nP → Fin nK → Fin 2 → ℕ)
    (patient_classes : Fin nP → Fin 2 → ℚ) (k : Fin nK) (j l : Fin 2) : ℚ :=
  if AM = 0 ∧ j = 0 then (if l = 0 then 1 else 0)
  else
    if 0 < ∑ l', error_rates_dot counts patient_classes k j l' then
      error_rates_dot counts patient_classes k j l /
        ∑ l', error_rates_dot counts patient_classes k j l'
    else error_rates_dot counts patient_classes k j l

/-- Embedding of `m_step`: returns the class marginals and error rates. -/
def m_step {nP nK : ℕ} (AM : ℕ) (counts : Fin nP → Fin nK → Fin 2 → ℕ)
    (patient_classes : Fin nP → Fin 2 → ℚ) :
    (Fin 2 → ℚ) × (Fin nK → Fin 2 → Fin 2 → ℚ) :=
  (class_marginals patient_classes, error_rates AM counts patient_classes)

/-- Unnormalised E-step score for patient `i` and class `j`:
`class_marginals[j] * np.prod(np.power(error_rates[:,j,:], counts[i,:,:]))`.
Numpy's float `power` sends `0.0 ** 0.0` to `1.0`, matching `x ^ (0 : ℕ) = 1`
here. -/
def e_score {nP nK : ℕ} (counts : Fin nP → Fin nK → Fin 2 → ℕ)
    (cm : Fin 2 → ℚ) (er : Fin nK → Fin 2 → Fin 2 → ℚ) (i : Fin nP) (j : Fin 2) : ℚ :=
  cm j * ∏ k, ∏ l, er k j l ^ counts i k l

/-- Row of `e_step` before the final normalisation: the blind-spot override
writes `[0, 1]`, otherwise the score. -/
def e_step_raw {nP nK : ℕ} (AM : ℕ) (counts : Fin nP → Fin nK → Fin 2 → ℕ)
    (gold : Fin nP → ℕ) (cm : Fin 2 → ℚ) (er : Fin nK → Fin 2 → Fin 2 → ℚ)
    (i : Fin nP) (j : Fin 2) : ℚ :=
  if blindspot AM counts gold i then (if j = 1 then 1 else 0)
  else e_score counts cm er i j

/-- Embedding of `e_step`: fill each row (override or scores), then divide
the row by its sum when `patient_sum > 0`, leaving it untouched otherwise. -/
def e_step {nP nK : ℕ} (AM : ℕ) (counts : Fin nP → Fin nK → Fin 2 → ℕ)
    (gold : Fin nP → ℕ) (cm : Fin 2 → ℚ) (er : Fin nK → Fin 2 → Fin 2 → ℚ) :
    Fin nP → Fin 2 → ℚ := fun i j =>
  if 0 < ∑ j', e_step_raw AM counts gold cm er i j' then
    e_step_raw AM counts gold cm er i j / ∑ j', e_step_raw AM counts gold cm er i j'
  else e_step_raw AM counts gold cm er i j

/-- Total likelihood of one patient in `calc_likelihood`: the sum over
classes of `class_prior * np.prod(np.power(error_rates[:,j,:], counts[i,:,:]))`,
with no blind-spot override. -/
def patient_likelihood {nP nK : ℕ} (counts : Fin nP → Fin nK → Fin 2 → ℕ)
    (cm : Fin 2 → ℚ) (er : Fin nK → Fin 2 → Fin 2 → ℚ) (i : Fin nP) : ℚ :=
  ∑ j, cm j * ∏ k, ∏ l, er k j l ^ counts i k l

/-- One accumulation step of `calc_likelihood`.  The source computes
`temp = log_L + np.log(patient_likelihood)` and calls `sys.exit()` when
`temp` is NaN or infinite.  Idealising floats by reals (no overflow), with
`log_L` finite the update is non-finite exactly when the argument of the
logarithm is nonpositive (`np.log 0 = -inf`, `np.log` of a negative is NaN);
we model the fatal exit as `none`. -/
noncomputable def lik_step {nP nK : ℕ} (counts : Fin nP → Fin nK → Fin 2 → ℕ)
    (cm : Fin 2 → ℚ) (er : Fin nK → Fin 2 → Fin 2 → ℚ)
    (acc : Option ℝ) (i : Fin nP) : Option ℝ :=
  acc.bind fun x =>
    if patient_likelihood counts cm er i ≤ 0 then none
    else some (x + Real.log ((patient_likelihood counts cm er i : ℚ) : ℝ))

/-- Embedding of `calc_likelihood`: fold the per-patient accumulation over
the patients in order, starting from `log_L = 0.0`; `none` is the fatal
`sys.exit()` path. -/
noncomputable def calc_likelihood {nP nK : ℕ} (counts : Fin nP → Fin nK → Fin 2 → ℕ)
    (cm : Fin 2 → ℚ) (er : Fin nK → Fin 2 → Fin 2 → ℚ) : Option ℝ :=
  (List.finRange nP).foldl (lik_step counts cm er) (some 0)

/-- Decidable abort condition of `calc_likelihood`, used by the EM loop
embedding: the fold above hits the fatal exit iff some patient's total
likelihood is nonpositive. -/
def calc_likelihood_aborts {nP nK : ℕ} (counts : Fin nP → Fin nK → Fin 2 → ℕ)
    (cm : Fin 2 → ℚ) (er : Fin nK → Fin 2 → Fin 2 → ℚ) : Bool :=
  decide (∃ i, patient_likelihood counts cm er i ≤ 0)

/-- Count tensor built by `responses_to_counts`.  The input responses are
modelled as, per patient and observer, the list of `(class label, gold
flag)` pairs (a missing patient/observer pair is the empty list); the
source's identifier-to-index bookkeeping (dict keys and `list.index`) is
this indexing.  Each response increments `counts[i,k,j] += 1`; we embed
that left-to-right accumulation. -/
def resp_counts {nP nK : ℕ} (resp : Fin nP → Fin nK → List (Fin 2 × Bool))
    (i : Fin nP) (k : Fin nK) (j : Fin 2) : ℕ :=
  (resp i k).foldl (fun c r => if r.1 = j then c + 1 else c) 0

/-- Gold-evidence entry built by `responses_to_counts`: starting from 0,
each response with `class_label == 1 and truth_label == 't'` sets the
entry to 1. -/
def resp_gold {nP nK : ℕ} (resp : Fin nP → Fin nK → List (Fin 2 × Bool))
    (i : Fin nP) : ℕ :=
  ((List.finRange nK).flatMap fun k => resp i k).foldl
    (fun g r => if r.1 = 1 ∧ r.2 = true then 1 else g) 0

/-- State of the EM loop in `run`: the iteration counter, the previous
iteration's `(class_marginals, error_rates)` (`None` before the first
iteration), the current posterior, and whether `calc_likelihood` hit its
fatal exit. -/
structure EMState (nP nK : ℕ) where
  iteration : ℕ
  old : Option ((Fin 2 → ℚ) × (Fin nK → Fin 2 → Fin 2 → ℚ))
  posterior : Fin nP → Fin 2 → ℚ
  aborted : Bool

/-- Summed absolute difference of class marginals:
`np.sum(np.abs(class_marginals - old_class_marginals))`. -/
def cm_diff (a b : Fin 2 → ℚ) : ℚ :=
  ∑ j, |a j - b j|

/-- Summed absolute difference of error rates:
`np.sum(np.abs(error_rates - old_error_rates))`. -/
def er_diff {nK : ℕ} (a b : Fin nK → Fin 2 → Fin 2 → ℚ) : ℚ :=
  ∑ k, ∑ j, ∑ l, |a k j l - b k j l|

/-- Convergence test of `run`: skipped while `old_class_marginals is None`;
otherwise `(class_marginals_diff < tol and error_rates_diff < tol) or
iteration > max_iter`, evaluated with the just-incremented iteration
counter. -/
def conv_check {nK : ℕ} (old : Option ((Fin 2 → ℚ) × (Fin nK → Fin 2 → Fin 2 → ℚ)))
    (cm : Fin 2 → ℚ) (er : Fin nK → Fin 2 → Fin 2 → ℚ)
    (tol : ℚ) (iter : ℕ) (max_iter : ℕ) : Bool :=
  match old with
  | none => false
  | some p =>
      (decide (cm_diff cm p.1 < tol) && decide (er_diff er p.2 < tol)) ||
        decide (max_iter < iter)

/-- The `while not converged` loop of `run`.  One body execution increments
the iteration counter, runs `m_step` on the current posterior, then `e_step`
with the new parameters, then `calc_likelihood` (whose fatal exit we record
in `aborted` and stop), then the convergence test against the previous
iteration's parameters, and finally stores the new parameters as `old`. -/
def run_loop {nP nK : ℕ} (AM : ℕ) (counts : Fin nP → Fin nK → Fin 2 → ℕ)
    (gold : Fin nP → ℕ) (tol : ℚ) (max_iter : ℕ) (st : EMState nP nK) :
    EMState nP nK :=
  if calc_likelihood_aborts counts (class_marginals st.posterior)
      (error_rates AM counts st.posterior) then
    ⟨st.iteration + 1, st.old,
      e_step AM counts gold (class_marginals st.posterior)
        (error_rates AM counts st.posterior), true⟩
  else if conv_check st.old (class_marginals st.posterior)
      (error_rates AM counts st.posterior) tol (st.iteration + 1) max_iter then
    ⟨st.iteration + 1,
      some (class_marginals st.posterior, error_rates AM counts st.posterior),
      e_step AM counts gold (class_marginals st.posterior)
        (error_rates AM counts st.posterior), false⟩
  else
    run_loop AM counts gold tol max_iter
      ⟨st.iteration + 1,
        some (class_marginals st.posterior, error_rates AM counts st.posterior),
        e_step AM counts gold (class_marginals st.posterior)
          (error_rates AM counts st.posterior), false⟩
termination_by max_iter + 2 - st.iteration + (if st.old.isNone then 1 else 0)
decreasing_by
  rename_i hconv
  cases hold : st.old with
  | none =>
      simp [hold]
      omega
  | some p =>
      simp [hold, conv_check] at hconv ⊢
      omega

/-- Embedding of `run` after initialisation: the loop starts with
`iteration = 0`, `old_class_marginals = None` and the initial posterior. -/
def run_em {nP nK : ℕ} (AM : ℕ) (counts : Fin nP → Fin nK → Fin 2 → ℕ)
    (gold : Fin nP → ℕ) (tol : ℚ) (max_iter : ℕ) : EMState nP nK :=
  run_loop AM counts gold tol max_iter
    ⟨0, none, init_patient_classes AM counts gold, false⟩

/-- Concrete input: one patient, one observer, two class-0 observations. -/
def exCounts0 : Fin 1 → Fin 1 → Fin 2 → ℕ := fun _ _ j => if j = 0 then 2 else 0

/-- Concrete input: one patient, one observer, one class-1 observation. -/
def exCounts1 : Fin 1 → Fin 1 → Fin 2 → ℕ := fun _ _ j => if j = 1 then 1 else 0

/-- Concrete input: two patients, one observer; patient 0 has one class-0
observation and patient 1 has no observations at all. -/
def exCountsZeroRow : Fin 2 → Fin 1 → Fin 2 → ℕ :=
  fun i _ j => if i = 0 ∧ j = 0 then 1 else 0

/-- Concrete input: no gold evidence. -/
def exGold : Fin 1 → ℕ := fun _ => 0

/-- Concrete input: no gold evidence, two patients. -/
def exGold2 : Fin 2 → ℕ := fun _ => 0

/-- Concrete input: nonnegative class marginals (for hypotheses that only
require nonnegativity, an integer value keeps evaluation kernel-friendly). -/
def exCm : Fin 2 → ℚ := fun _ => 1

/-- Concrete input: nonnegative error rates. -/
def exEr : Fin 1 → Fin 2 → Fin 2 → ℚ := fun _ _ _ => 1

/-- Concrete input: all-zero error rates. -/
def exErZero : Fin 1 → Fin 2 → Fin 2 → ℚ := fun _ _ _ => 0

/-- Concrete input: a posterior with patient 0 fully assigned to class 0. -/
def exPc : Fin 1 → Fin 2 → ℚ := fun _ j => if j = 0 then 1 else 0

/-- Concrete input: one patient, one observer, no observations at all. -/
def exCountsNone : Fin 1 → Fin 1 → Fin 2 → ℕ := fun _ _ _ => 0

theorem e_score_nonneg {nP nK : ℕ} (counts : Fin nP → Fin nK → Fin 2 → ℕ)
    (cm : Fin 2 → ℚ) (er : Fin nK → Fin 2 → Fin 2 → ℚ)
    (hcm : ∀ j, 0 ≤ cm j) (her : ∀ k j l, 0 ≤ er k j l) (i : Fin nP) (j : Fin 2) :
    0 ≤ e_score counts cm er i j := by
  refine mul_nonneg (hcm j) ?_
  refine Finset.prod_nonneg fun k _ => ?_
  exact Finset.prod_nonneg fun l _ => pow_nonneg (her k j l) _

theorem patient_likelihood_nonneg {nP nK : ℕ} (counts : Fin nP → Fin nK → Fin 2 → ℕ)
    (cm : Fin 2 → ℚ) (er : Fin nK → Fin 2 → Fin 2 → ℚ)
    (hcm : ∀ j, 0 ≤ cm j) (her : ∀ k j l, 0 ≤ er k j l) (i : Fin nP) :
    0 ≤ patient_likelihood counts cm er i := by
  refine Finset.sum_nonneg fun j _ => mul_nonneg (hcm j) ?_
  refine Finset.prod_nonneg fun k _ => ?_
  exact Finset.prod_nonneg fun l _ => pow_nonneg (her k j l) _

theorem e_step_raw_nonneg {nP nK : ℕ} (AM : ℕ) (counts : Fin nP → Fin nK → Fin 2 → ℕ)
    (gold : Fin nP → ℕ) (cm : Fin 2 → ℚ) (er : Fin nK → Fin 2 → Fin 2 → ℚ)
    (hcm : ∀ j, 0 ≤ cm j) (her : ∀ k j l, 0 ≤ er k j l) (i : Fin nP) (j : Fin 2) :
    0 ≤ e_step_raw AM counts gold cm er i j := by
  unfold e_step_raw
  split
  · split <;> norm_num
  · exact e_score_nonneg counts cm er hcm her i j

theorem error_rates_dot_nonneg {nP nK : ℕ} (counts : Fin nP → Fin nK → Fin 2 → ℕ)
    (pc : Fin nP → Fin 2 → ℚ) (hpc : ∀ i j, 0 ≤ pc i j) (k : Fin nK) (j l : Fin 2) :
    0 ≤ error_rates_dot counts pc k j l := by
  refine Finset.sum_nonneg fun i _ => mul_nonneg (hpc i j) ?_
  positivity

/-- C2: for `AM_noise == 0`, every item with at least one class-1 count
from some observer has posterior row exactly `[0, 1]` after initialization
and after every E-step (for arbitrary marginals and error rates, hence in
every iteration); likewise for `AM_noise == 2` and a set gold-evidence
entry. -/
theorem blindspot_override_posterior {nP nK : ℕ} (AM : ℕ)
    (counts : Fin nP → Fin nK → Fin 2 → ℕ) (gold : Fin nP → ℕ)
    (cm : Fin 2 → ℚ) (er : Fin nK → Fin 2 → Fin 2 → ℚ) (i : Fin nP)
    (h : (AM = 0 ∧ ∃ k, 0 < counts i k 1) ∨ (AM = 2 ∧ 0 < gold i)) :
    (init_patient_classes AM counts gold i 0 = 0 ∧
      init_patient_classes AM counts gold i 1 = 1) ∧
    (e_step AM counts gold cm er i 0 = 0 ∧
      e_step AM counts gold cm er i 1 = 1) := by
  have hb : blindspot AM counts gold i := h
  have hraw : ∀ j, e_step_raw AM counts gold cm er i j = if j = 1 then 1 else 0 := by
    intro j
    unfold e_step_raw
    rw [if_pos hb]
  have hsum : ∑ j', e_step_raw AM counts gold cm er i j' = 1 := by
    rw [Fin.sum_univ_two, hraw, hraw]
    norm_num
  constructor
  · constructor <;> · unfold init_patient_classes; rw [if_pos hb]; norm_num
  · constructor <;> · unfold e_step; rw [hsum, hraw]; norm_num

/-- C7: a zero-count cell contributes a factor of exactly 1 to the E-step
score and to the likelihood: the error rate at that cell, raised to the
count 0, is 1, and replacing that cell's rate by any value (in particular
0) leaves `e_score` and `patient_likelihood` unchanged. -/
theorem zero_power_convention {nP nK : ℕ} (counts : Fin nP → Fin nK → Fin 2 → ℕ)
    (cm : Fin 2 → ℚ) (er : Fin nK → Fin 2 → Fin 2 → ℚ) (i : Fin nP)
    (k0 : Fin nK) (l0 : Fin 2) (h : counts i k0 l0 = 0) :
    (∀ j, er k0 j l0 ^ counts i k0 l0 = 1) ∧
    (∀ x : ℚ, ∀ j,
      e_score counts cm (fun ka jb lc => if ka = k0 ∧ lc = l0 then x else er ka jb lc) i j =
        e_score counts cm er i j) ∧
    (∀ x : ℚ,
      patient_likelihood counts cm
          (fun ka jb lc => if ka = k0 ∧ lc = l0 then x else er ka jb lc) i =
        patient_likelihood counts cm er i) := by
  have key : ∀ (x : ℚ) (j : Fin 2),
      (∏ k, ∏ l, (if k = k0 ∧ l = l0 then x else er k j l) ^ counts i k l) =
        ∏ k, ∏ l, er k j l ^ counts i k l := by
    intro x j
    refine Finset.prod_congr rfl fun k _ => Finset.prod_congr rfl fun l _ => ?_
    by_cases hk : k = k0 ∧ l = l0
    · obtain ⟨hk1, hk2⟩ := hk
      subst hk1
      subst hk2
      rw [if_pos ⟨rfl, rfl⟩, h, pow_zero, pow_zero]
    · rw [if_neg hk]
  refine ⟨fun j => by rw [h, pow_zero], fun x j => ?_, fun x => ?_⟩
  · unfold e_score
    rw [key]
  · unfold patient_likelihood
    exact Finset.sum_congr rfl fun j _ => by rw [key]

/-- Witness for C2 at a concrete input: one patient, one observer, one
class-1 count, `AM_noise = 0`. -/
theorem blindspot_override_posterior_witness :
    ((0 = 0 ∧ ∃ k : Fin 1, 0 < exCounts1 0 k 1) ∨ (0 = 2 ∧ 0 < exGold 0)) ∧
    ((init_patient_classes 0 exCounts1 exGold 0 0 = 0 ∧
      init_patient_classes 0 exCounts1 exGold 0 1 = 1) ∧
    (e_step 0 exCounts1 exGold exCm exEr 0 0 = 0 ∧
      e_step 0 exCounts1 exGold exCm exEr 0 1 = 1)) :=
  ⟨by decide, blindspot_override_posterior 0 exCounts1 exGold exCm exEr 0 (by decide)⟩

/-- Witness for C7 at a concrete input: the single observer's class-1 count
is 0 while its error rate is 0. -/
theorem zero_power_convention_witness :
    (exCounts0 0 0 1 = 0) ∧
    ((∀ j, exErZero 0 j 1 ^ exCounts0 0 0 1 = 1) ∧
    (∀ x : ℚ, ∀ j,
      e_score exCounts0 exCm
          (fun ka jb lc => if ka = 0 ∧ lc = 1 then x else exErZero ka jb lc) 0 j =
        e_score exCounts0 exCm exErZero 0 j) ∧
    (∀ x : ℚ,
      patient_likelihood exCounts0 exCm
          (fun ka jb lc => if ka = 0 ∧ lc = 1 then x else exErZero ka jb lc) 0 =
        patient_likelihood exCounts0 exCm exErZero 0)) :=
  ⟨by decide, zero_power_convention exCounts0 exCm exErZero 0 0 1 (by decide)⟩

/-- C1: when no blind-spot override applies to item `i` (in particular for
every item when `AM_noise = 1`, which never satisfies the trigger), the
E-step row is the unnormalized scores
`ClassMarginal[j] * ∏ k l, ErrorRate[k,j,l] ^ Count[i,k,l]` divided by their
sum (and then sums to 1) when that sum is positive, and is exactly all-zero
when that sum is zero. -/
theorem e_step_postcondition {nP nK : ℕ} (AM : ℕ)
    (counts : Fin nP → Fin nK → Fin 2 → ℕ) (gold : Fin nP → ℕ)
    (cm : Fin 2 → ℚ) (er : Fin nK → Fin 2 → Fin 2 → ℚ)
    (hcm : ∀ j, 0 ≤ cm j) (her : ∀ k j l, 0 ≤ er k j l)
    (i : Fin nP) (hi : ¬ blindspot AM counts gold i) :
    (0 < ∑ j, e_score counts cm er i j →
      (∀ j, e_step AM counts gold cm er i j =
          e_score counts cm er i j / ∑ j', e_score counts cm er i j') ∧
      ∑ j, e_step AM counts gold cm er i j = 1) ∧
    (∑ j, e_score counts cm er i j = 0 →
      ∀ j, e_step AM counts gold cm er i j = 0) := by
  have hraw : ∀ j, e_step_raw AM counts gold cm er i j = e_score counts cm er i j := by
    intro j
    unfold e_step_raw
    rw [if_neg hi]
  have hsum : ∑ j', e_step_raw AM counts gold cm er i j' = ∑ j', e_score counts cm er i j' :=
    Finset.sum_congr rfl fun j _ => hraw j
  constructor
  · intro hpos
    have heq : ∀ j, e_step AM counts gold cm er i j =
        e_score counts cm er i j / ∑ j', e_score counts cm er i j' := by
      intro j
      unfold e_step
      rw [hsum, hraw, if_pos hpos]
    refine ⟨heq, ?_⟩
    rw [Finset.sum_congr rfl fun j _ => heq j, ← Finset.sum_div]
    exact div_self (ne_of_gt hpos)
  · intro hzero
    intro j
    have hnot : ¬ (0 < ∑ j', e_score counts cm er i j') := by
      rw [hzero]
      exact lt_irrefl 0
    have hj0 : e_score counts cm er i j = 0 := by
      have := (Finset.sum_eq_zero_iff_of_nonneg
        (fun j _ => e_score_nonneg counts cm er hcm her i j)).mp hzero
      exact this j (Finset.mem_univ j)
    unfold e_step
    rw [hsum, hraw, if_neg hnot]
    exact hj0

/-- Witness for C1: one patient, one observer, two class-0 counts, uniform
parameters, `AM_noise = 1` (no override). -/
theorem e_step_postcondition_witness :
    (∀ j, 0 ≤ exCm j) ∧ (∀ k j l, 0 ≤ exEr k j l) ∧
    (¬ blindspot 1 exCounts0 exGold 0) ∧
    ((0 < ∑ j, e_score exCounts0 exCm exEr 0 j →
      (∀ j, e_step 1 exCounts0 exGold exCm exEr 0 j =
          e_score exCounts0 exCm exEr 0 j / ∑ j', e_score exCounts0 exCm exEr 0 j') ∧
      ∑ j, e_step 1 exCounts0 exGold exCm exEr 0 j = 1) ∧
    (∑ j, e_score exCounts0 exCm exEr 0 j = 0 →
      ∀ j, e_step 1 exCounts0 exGold exCm exEr 0 j = 0)) :=
  ⟨by decide, by decide, by decide,
    e_step_postcondition 1 exCounts0 exGold exCm exEr (by decide) (by decide) 0 (by decide)⟩

/-- C4: every row of the initializer output sums to 1 or is exactly
all-zero, and likewise for the E-step output (given nonnegative marginals
and error rates, as produced by the M-step). -/
theorem posterior_rows_normalized {nP nK : ℕ} (AM : ℕ)
    (counts : Fin nP → Fin nK → Fin 2 → ℕ) (gold : Fin nP → ℕ)
    (cm : Fin 2 → ℚ) (er : Fin nK → Fin 2 → Fin 2 → ℚ)
    (hcm : ∀ j, 0 ≤ cm j) (her : ∀ k j l, 0 ≤ er k j l) (i : Fin nP) :
    ((∑ j, init_patient_classes AM counts gold i j = 1) ∨
      (∀ j, init_patient_classes AM counts gold i j = 0)) ∧
    ((∑ j, e_step AM counts gold cm er i j = 1) ∨
      (∀ j, e_step AM counts gold cm er i j = 0)) := by
  constructor
  · by_cases hb : blindspot AM counts gold i
    · left
      have heq : ∀ j : Fin 2, init_patient_classes AM counts gold i j =
          if j = 1 then 1 else 0 := by
        intro j
        unfold init_patient_classes
        rw [if_pos hb]
      rw [Fin.sum_univ_two, heq, heq]
      norm_num
    · by_cases hp : 0 < ∑ j', response_sums counts i j'
      · left
        have heq : ∀ j, init_patient_classes AM counts gold i j =
            (response_sums counts i j : ℚ) / ((∑ j', response_sums counts i j' : ℕ) : ℚ) := by
          intro j
          unfold init_patient_classes
          rw [if_neg hb, if_pos hp]
        rw [Finset.sum_congr rfl fun j _ => heq j, ← Finset.sum_div, ← Nat.cast_sum]
        refine div_self ?_
        exact Nat.cast_ne_zero.mpr (Nat.pos_iff_ne_zero.mp hp)
      · right
        intro j
        unfold init_patient_classes
        rw [if_neg hb, if_neg hp]
  · have hnn : ∀ j, 0 ≤ e_step_raw AM counts gold cm er i j :=
      fun j => e_step_raw_nonneg AM counts gold cm er hcm her i j
    by_cases hp : 0 < ∑ j', e_step_raw AM counts gold cm er i j'
    · left
      have heq : ∀ j, e_step AM counts gold cm er i j =
          e_step_raw AM counts gold cm er i j / ∑ j', e_step_raw AM counts gold cm er i j' := by
        intro j
        unfold e_step
        rw [if_pos hp]
      rw [Finset.sum_congr rfl fun j _ => heq j, ← Finset.sum_div]
      exact div_self (ne_of_gt hp)
    · right
      intro j
      have hz : ∑ j', e_step_raw AM counts gold cm er i j' = 0 := by
        have hle : 0 ≤ ∑ j', e_step_raw AM counts gold cm er i j' :=
          Finset.sum_nonneg fun j _ => hnn j
        exact le_antisymm (not_lt.mp hp) hle
      have hj0 : e_step_raw AM counts gold cm er i j = 0 :=
        (Finset.sum_eq_zero_iff_of_nonneg fun j _ => hnn j).mp hz j (Finset.mem_univ j)
      unfold e_step
      rw [if_neg hp]
      exact hj0

/-- Witness for C4: concrete one-patient input with uniform parameters. -/
theorem posterior_rows_normalized_witness :
    (∀ j, 0 ≤ exCm j) ∧ (∀ k j l, 0 ≤ exEr k j l) ∧
    (((∑ j, init_patient_classes 1 exCounts0 exGold 0 j = 1) ∨
      (∀ j, init_patient_classes 1 exCounts0 exGold 0 j = 0)) ∧
    ((∑ j, e_step 1 exCounts0 exGold exCm exEr 0 j = 1) ∨
      (∀ j, e_step 1 exCounts0 exGold exCm exEr 0 j = 0))) :=
  ⟨by decide, by decide,
    posterior_rows_normalized 1 exCounts0 exGold exCm exEr (by decide) (by decide) 0⟩

/-- C3: the M-step marginals are the column-wise mean of the posterior, and
each error-rate row is either the forced `[1, 0]` profile (for
`AM_noise = 0` and true class 0), or the soft-count dot products normalized
to sum to 1 when their sum is positive, and exactly all-zero when that sum
is zero. -/
theorem m_step_postcondition {nP nK : ℕ} (AM : ℕ)
    (counts : Fin nP → Fin nK → Fin 2 → ℕ) (pc : Fin nP → Fin 2 → ℚ)
    (hpc : ∀ i j, 0 ≤ pc i j) (k : Fin nK) (j : Fin 2) :
    (∀ j', (m_step AM counts pc).1 j' = (∑ i, pc i j') / (nP : ℚ)) ∧
    (AM = 0 ∧ j = 0 →
      (m_step AM counts pc).2 k j 0 = 1 ∧ (m_step AM counts pc).2 k j 1 = 0) ∧
    (¬ (AM = 0 ∧ j = 0) →
      (0 < ∑ l, error_rates_dot counts pc k j l →
        (∀ l, (m_step AM counts pc).2 k j l =
          error_rates_dot counts pc k j l / ∑ l', error_rates_dot counts pc k j l') ∧
        ∑ l, (m_step AM counts pc).2 k j l = 1) ∧
      (∑ l, error_rates_dot counts pc k j l = 0 →
        ∀ l, (m_step AM counts pc).2 k j l = 0)) := by
  refine ⟨fun j' => rfl, ?_, ?_⟩
  · intro hf
    constructor <;> · show error_rates AM counts pc k j _ = _
                      unfold error_rates
                      rw [if_pos hf]
                      norm_num
  · intro hn
    constructor
    · intro hpos
      have heq : ∀ l, error_rates AM counts pc k j l =
          error_rates_dot counts pc k j l / ∑ l', error_rates_dot counts pc k j l' := by
        intro l
        unfold error_rates
        rw [if_neg hn, if_pos hpos]
      refine ⟨heq, ?_⟩
      show ∑ l, error_rates AM counts pc k j l = 1
      rw [Finset.sum_congr rfl fun l _ => heq l, ← Finset.sum_div]
      exact div_self (ne_of_gt hpos)
    · intro hz l
      have hnot : ¬ (0 < ∑ l', error_rates_dot counts pc k j l') := by
        rw [hz]
        exact lt_irrefl 0
      have hl0 : error_rates_dot counts pc k j l = 0 :=
        (Finset.sum_eq_zero_iff_of_nonneg
          (fun l _ => error_rates_dot_nonneg counts pc hpc k j l)).mp hz l (Finset.mem_univ l)
      show error_rates AM counts pc k j l = 0
      unfold error_rates
      rw [if_neg hn, if_neg hnot]
      exact hl0

/-- Witness for C3: one patient fully in class 0 with two class-0 counts,
`AM_noise = 1`, true class `j = 1` (whose soft-count row is all-zero) —
both the forced-row implication (vacuously) and the data-driven branch are
exercised by the theorem application. -/
theorem m_step_postcondition_witness :
    (∀ i j, 0 ≤ exPc i j) ∧
    ((∀ j', (m_step 1 exCounts0 exPc).1 j' = (∑ i, exPc i j') / ((1 : ℕ) : ℚ)) ∧
    (1 = 0 ∧ (1 : Fin 2) = 0 →
      (m_step 1 exCounts0 exPc).2 0 1 0 = 1 ∧ (m_step 1 exCounts0 exPc).2 0 1 1 = 0) ∧
    (¬ (1 = 0 ∧ (1 : Fin 2) = 0) →
      (0 < ∑ l, error_rates_dot exCounts0 exPc 0 1 l →
        (∀ l, (m_step 1 exCounts0 exPc).2 0 1 l =
          error_rates_dot exCounts0 exPc 0 1 l / ∑ l', error_rates_dot exCounts0 exPc 0 1 l') ∧
        ∑ l, (m_step 1 exCounts0 exPc).2 0 1 l = 1) ∧
      (∑ l, error_rates_dot exCounts0 exPc 0 1 l = 0 →
        ∀ l, (m_step 1 exCounts0 exPc).2 0 1 l = 0))) :=
  ⟨by decide, m_step_postcondition 1 exCounts0 exPc (by decide) 0 1⟩

/-- C5 counterexample: with `AM_noise = 1`, two patients and one observer,
where patient 0 has a single class-0 observation and patient 1 has no
observations, the initializer gives patient 1 an all-zero row and the
M-step marginals sum to 1/2, not 1 — refuting the claim for inputs
containing items with no observations. -/
theorem class_marginals_sum_counterexample :
    (∑ j, (m_step 1 exCountsZeroRow
        (init_patient_classes 1 exCountsZeroRow exGold2)).1 j) = 1/2 ∧
    ¬ (∑ j, (m_step 1 exCountsZeroRow
        (init_patient_classes 1 exCountsZeroRow exGold2)).1 j) = 1 := by
  have h00 : init_patient_classes 1 exCountsZeroRow exGold2 0 0 = 1 := by
    unfold init_patient_classes blindspot response_sums
    norm_num [Fin.sum_univ_two, Fin.sum_univ_one, exCountsZeroRow, exGold2]
  have h01 : init_patient_classes 1 exCountsZeroRow exGold2 0 1 = 0 := by
    unfold init_patient_classes blindspot response_sums
    norm_num [Fin.sum_univ_two, Fin.sum_univ_one, exCountsZeroRow, exGold2]
  have h10 : init_patient_classes 1 exCountsZeroRow exGold2 1 0 = 0 := by
    unfold init_patient_classes blindspot response_sums
    norm_num [Fin.sum_univ_two, Fin.sum_univ_one, exCountsZeroRow, exGold2]
  have h11 : init_patient_classes 1 exCountsZeroRow exGold2 1 1 = 0 := by
    unfold init_patient_classes blindspot response_sums
    norm_num [Fin.sum_univ_two, Fin.sum_univ_one, exCountsZeroRow, exGold2]
  have h : (∑ j, (m_step 1 exCountsZeroRow
      (init_patient_classes 1 exCountsZeroRow exGold2)).1 j) = 1/2 := by
    show (∑ j, class_marginals (init_patient_classes 1 exCountsZeroRow exGold2) j) = 1/2
    rw [Fin.sum_univ_two]
    unfold class_marginals
    rw [Fin.sum_univ_two, Fin.sum_univ_two, h00, h01, h10, h11]
    norm_num
  refine ⟨h, ?_⟩
  rw [h]
  norm_num

/-- C5 amended: the Class Marginals returned by the M-step sum to 1
whenever there is at least one item and every row of the input posterior
sums to 1; for inputs where some item's posterior row is all-zero (an item
with no observations and no blind-spot override) the marginals sum to
strictly less than 1, as the counterexample shows. -/
theorem class_marginals_sum_one {nP nK : ℕ} (AM : ℕ)
    (counts : Fin nP → Fin nK → Fin 2 → ℕ) (pc : Fin nP → Fin 2 → ℚ)
    (h1 : 0 < nP) (h2 : ∀ i, ∑ j, pc i j = 1) :
    ∑ j, (m_step AM counts pc).1 j = 1 := by
  show ∑ j, class_marginals pc j = 1
  unfold class_marginals
  rw [← Finset.sum_div, Finset.sum_comm]
  rw [Finset.sum_congr rfl fun i _ => h2 i]
  rw [Finset.sum_const, Finset.card_univ, Fintype.card_fin, nsmul_eq_mul, mul_one]
  exact div_self (Nat.cast_ne_zero.mpr (Nat.pos_iff_ne_zero.mp h1))

/-- Witness for the amended C5: one patient fully assigned to class 0. -/
theorem class_marginals_sum_one_witness :
    0 < 1 ∧ (∀ i : Fin 1, ∑ j, exPc i j = 1) ∧
    ∑ j, (m_step 1 exCounts0 exPc).1 j = 1 :=
  ⟨by decide, by simp [exPc, Fin.sum_univ_two],
    class_marginals_sum_one 1 exCounts0 exPc (by decide)
      (by simp [exPc, Fin.sum_univ_two])⟩

theorem count_foldl_aux (j : Fin 2) :
    ∀ (l : List (Fin 2 × Bool)) (n : ℕ),
      l.foldl (fun c r => if r.1 = j then c + 1 else c) n =
        n + l.countP (fun r => r.1 == j) := by
  intro l
  induction l with
  | nil =>
      intro n
      simp
  | cons a l ih =>
      intro n
      rw [List.foldl_cons, ih, List.countP_cons]
      by_cases ha : a.1 = j
      · simp [ha]
        omega
      · simp [ha]

theorem gold_foldl_aux :
    ∀ (l : List (Fin 2 × Bool)) (g : ℕ),
      l.foldl (fun gacc r => if r.1 = 1 ∧ r.2 = true then 1 else gacc) g =
        if ∃ r ∈ l, r.1 = 1 ∧ r.2 = true then 1 else g := by
  intro l
  induction l with
  | nil =>
      intro g
      simp
  | cons a l ih =>
      intro g
      rw [List.foldl_cons, ih]
      by_cases ha : a.1 = 1 ∧ a.2 = true
      · have hx : ∃ r ∈ a :: l, r.1 = 1 ∧ r.2 = true := ⟨a, List.mem_cons_self a l, ha⟩
        rw [if_pos ha, if_pos hx]
        split <;> rfl
      · rw [if_neg ha]
        by_cases hl : ∃ r ∈ l, r.1 = 1 ∧ r.2 = true
        · obtain ⟨r, hr, hp⟩ := hl
          have hx : ∃ r ∈ a :: l, r.1 = 1 ∧ r.2 = true :=
            ⟨r, List.mem_cons_of_mem a hr, hp⟩
          have hy : ∃ r ∈ l, r.1 = 1 ∧ r.2 = true := ⟨r, hr, hp⟩
          rw [if_pos hy, if_pos hx]
        · have hx : ¬ ∃ r ∈ a :: l, r.1 = 1 ∧ r.2 = true := by
            rintro ⟨r, hr, hp⟩
            rcases List.mem_cons.mp hr with h1 | h2
            · exact ha (h1 ▸ hp)
            · exact hl ⟨r, h2, hp⟩
          rw [if_neg hl, if_neg hx]

/-- C9: each count cell equals the number of response tuples with that
patient, observer and class label (repeated observations accumulate), and
the gold-evidence entry is 1 iff some observation of the patient has class
label 1 and the trusted flag, and 0 otherwise — trusted observations of
class 0 leave it unset. -/
theorem responses_to_counts_postcondition {nP nK : ℕ}
    (resp : Fin nP → Fin nK → List (Fin 2 × Bool)) (i : Fin nP) (k : Fin nK) (j : Fin 2) :
    resp_counts resp i k j = (resp i k).countP (fun r => r.1 == j) ∧
    (resp_gold resp i = 1 ↔ ∃ kg, ∃ r ∈ resp i kg, r.1 = 1 ∧ r.2 = true) ∧
    (resp_gold resp i = 0 ↔ ¬ ∃ kg, ∃ r ∈ resp i kg, r.1 = 1 ∧ r.2 = true) := by
  have hc : resp_counts resp i k j = (resp i k).countP (fun r => r.1 == j) := by
    unfold resp_counts
    rw [count_foldl_aux j (resp i k) 0, Nat.zero_add]
  have hg : resp_gold resp i =
      if ∃ r ∈ (List.finRange nK).flatMap (fun kg => resp i kg), r.1 = 1 ∧ r.2 = true
      then 1 else 0 := by
    unfold resp_gold
    exact gold_foldl_aux _ 0
  have hmem : (∃ r ∈ (List.finRange nK).flatMap fun kg => resp i kg, r.1 = 1 ∧ r.2 = true) ↔
      ∃ kg, ∃ r ∈ resp i kg, r.1 = 1 ∧ r.2 = true := by
    constructor
    · rintro ⟨r, hr, hp⟩
      obtain ⟨kg, _, hrk⟩ := List.mem_flatMap.mp hr
      exact ⟨kg, r, hrk, hp⟩
    · rintro ⟨kg, r, hrk, hp⟩
      exact ⟨r, List.mem_flatMap.mpr ⟨kg, List.mem_finRange kg, hrk⟩, hp⟩
  refine ⟨hc, ?_, ?_⟩
  · rw [hg]
    by_cases h : ∃ kg, ∃ r ∈ resp i kg, r.1 = 1 ∧ r.2 = true
    · rw [if_pos (hmem.mpr h)]
      exact ⟨fun _ => h, fun _ => rfl⟩
    · rw [if_neg (fun hx => h (hmem.mp hx))]
      exact ⟨fun h0 => absurd h0 (by simp), fun hx => absurd hx h⟩
  · rw [hg]
    by_cases h : ∃ kg, ∃ r ∈ resp i kg, r.1 = 1 ∧ r.2 = true
    · rw [if_pos (hmem.mpr h)]
      exact ⟨fun h0 => absurd h0 (by simp), fun hn => absurd h hn⟩
    · rw [if_neg (fun hx => h (hmem.mp hx))]
      exact ⟨fun _ => h, fun _ => rfl⟩

theorem lik_foldl_none {nP nK : ℕ} (counts : Fin nP → Fin nK → Fin 2 → ℕ)
    (cm : Fin 2 → ℚ) (er : Fin nK → Fin 2 → Fin 2 → ℚ) (l : List (Fin nP)) :
    l.foldl (lik_step counts cm er) none = none := by
  induction l with
  | nil => rfl
  | cons a l ih =>
      rw [List.foldl_cons]
      exact ih

theorem lik_foldl_none_iff {nP nK : ℕ} (counts : Fin nP → Fin nK → Fin 2 → ℕ)
    (cm : Fin 2 → ℚ) (er : Fin nK → Fin 2 → Fin 2 → ℚ) (l : List (Fin nP)) :
    ∀ x : ℝ, (l.foldl (lik_step counts cm er) (some x) = none ↔
      ∃ i ∈ l, patient_likelihood counts cm er i ≤ 0) := by
  induction l with
  | nil =>
      intro x
      simp
  | cons a l ih =>
      intro x
      rw [List.foldl_cons]
      by_cases ha : patient_likelihood counts cm er a ≤ 0
      · have hstep : lik_step counts cm er (some x) a = none := by
          unfold lik_step
          simp [ha]
        rw [hstep, lik_foldl_none]
        constructor
        · intro _
          exact ⟨a, List.mem_cons_self a l, ha⟩
        · intro _
          rfl
      · have hstep : lik_step counts cm er (some x) a =
            some (x + Real.log ((patient_likelihood counts cm er a : ℚ) : ℝ)) := by
          unfold lik_step
          simp [ha]
        rw [hstep, ih]
        constructor
        · rintro ⟨i, hi, hp⟩
          exact ⟨i, List.mem_cons_of_mem a hi, hp⟩
        · rintro ⟨i, hi, hp⟩
          rcases List.mem_cons.mp hi with h1 | h2
          · exact absurd (h1 ▸ hp) ha
          · exact ⟨i, h2, hp⟩

theorem lik_foldl_some_eq {nP nK : ℕ} (counts : Fin nP → Fin nK → Fin 2 → ℕ)
    (cm : Fin 2 → ℚ) (er : Fin nK → Fin 2 → Fin 2 → ℚ) (l : List (Fin nP)) :
    ∀ x r : ℝ, l.foldl (lik_step counts cm er) (some x) = some r →
      r = x + (l.map fun i => Real.log ((patient_likelihood counts cm er i : ℚ) : ℝ)).sum := by
  induction l with
  | nil =>
      intro x r h
      simp only [List.foldl_nil, Option.some.injEq] at h
      simp [← h]
  | cons a l ih =>
      intro x r h
      rw [List.foldl_cons] at h
      by_cases ha : patient_likelihood counts cm er a ≤ 0
      · have hstep : lik_step counts cm er (some x) a = none := by
          unfold lik_step
          simp [ha]
        rw [hstep, lik_foldl_none] at h
        exact absurd h (by simp)
      · have hstep : lik_step counts cm er (some x) a =
            some (x + Real.log ((patient_likelihood counts cm er a : ℚ) : ℝ)) := by
          unfold lik_step
          simp [ha]
        rw [hstep] at h
        rw [ih _ _ h, List.map_cons, List.sum_cons]
        ring

/-- C6: the likelihood evaluator computes, for each item, the sum over
classes of `ClassMarginal[j]` times the product over observers and emitted
classes of `ErrorRate[k,j,l] ^ Count[i,k,l]` (with no blind-spot override),
takes logarithms and accumulates; under the real-number idealisation of the
source's floats it hits its fatal exit (`none`) exactly when the
accumulated value would become non-finite, i.e. iff some item's total
likelihood is zero, and otherwise returns the finite sum of the per-item
log-likelihoods. -/
theorem calc_likelihood_spec {nP nK : ℕ} (counts : Fin nP → Fin nK → Fin 2 → ℕ)
    (cm : Fin 2 → ℚ) (er : Fin nK → Fin 2 → Fin 2 → ℚ)
    (hcm : ∀ j, 0 ≤ cm j) (her : ∀ k j l, 0 ≤ er k j l) :
    (calc_likelihood counts cm er = none ↔
      ∃ i, patient_likelihood counts cm er i = 0) ∧
    (∀ r : ℝ, calc_likelihood counts cm er = some r →
      r = ∑ i, Real.log ((patient_likelihood counts cm er i : ℚ) : ℝ)) := by
  constructor
  · unfold calc_likelihood
    rw [lik_foldl_none_iff]
    constructor
    · rintro ⟨i, _, hle⟩
      exact ⟨i, le_antisymm hle (patient_likelihood_nonneg counts cm er hcm her i)⟩
    · rintro ⟨i, heq⟩
      exact ⟨i, List.mem_finRange i, le_of_eq heq⟩
  · intro r h
    unfold calc_likelihood at h
    rw [lik_foldl_some_eq counts cm er (List.finRange nP) 0 r h, zero_add,
      Fin.sum_univ_def]

/-- Witness for C6 at a concrete nonnegative input. -/
theorem calc_likelihood_spec_witness :
    (∀ j, 0 ≤ exCm j) ∧ (∀ k j l, 0 ≤ exEr k j l) ∧
    ((calc_likelihood exCounts0 exCm exEr = none ↔
      ∃ i, patient_likelihood exCounts0 exCm exEr i = 0) ∧
    (∀ r : ℝ, calc_likelihood exCounts0 exCm exEr = some r →
      r = ∑ i, Real.log ((patient_likelihood exCounts0 exCm exEr i : ℚ) : ℝ))) :=
  ⟨by decide, by decide,
    calc_likelihood_spec exCounts0 exCm exEr (by decide) (by decide)⟩

theorem run_loop_iteration_lt {nP nK : ℕ} (AM : ℕ) (counts : Fin nP → Fin nK → Fin 2 → ℕ)
    (gold : Fin nP → ℕ) (tol : ℚ) (max_iter : ℕ) (st : EMState nP nK) :
    st.iteration < (run_loop AM counts gold tol max_iter st).iteration := by
  induction st using run_loop.induct AM counts gold tol max_iter with
  | case1 x h =>
      rw [run_loop.eq_def, if_pos h]
      exact Nat.lt_succ_self _
  | case2 x h1 h2 =>
      rw [run_loop.eq_def, if_neg h1, if_pos h2]
      exact Nat.lt_succ_self _
  | case3 x h1 h2 ih =>
      rw [run_loop.eq_def, if_neg h1, if_neg h2]
      exact lt_trans (Nat.lt_succ_self _) ih

theorem run_loop_iteration_le {nP nK : ℕ} (AM : ℕ) (counts : Fin nP → Fin nK → Fin 2 → ℕ)
    (gold : Fin nP → ℕ) (tol : ℚ) (max_iter : ℕ) (st : EMState nP nK) :
    st.old.isSome = true → st.iteration ≤ max_iter →
      (run_loop AM counts gold tol max_iter st).iteration ≤ max_iter + 1 := by
  induction st using run_loop.induct AM counts gold tol max_iter with
  | case1 x h =>
      intro _ hit
      rw [run_loop.eq_def, if_pos h]
      show x.iteration + 1 ≤ max_iter + 1
      omega
  | case2 x h1 h2 =>
      intro _ hit
      rw [run_loop.eq_def, if_neg h1, if_pos h2]
      show x.iteration + 1 ≤ max_iter + 1
      omega
  | case3 x h1 h2 ih =>
      intro hs _
      obtain ⟨p, hp⟩ := Option.isSome_iff_exists.mp hs
      have hM : ¬ (max_iter < x.iteration + 1) := by
        rw [hp] at h2
        simp only [conv_check, Bool.or_eq_true, Bool.and_eq_true, decide_eq_true_eq,
          not_or, not_and] at h2
        exact h2.2
      rw [run_loop.eq_def, if_neg h1, if_neg h2]
      exact ih rfl (show x.iteration + 1 ≤ max_iter by omega)

theorem run_loop_none_le {nP nK : ℕ} (AM : ℕ) (counts : Fin nP → Fin nK → Fin 2 → ℕ)
    (gold : Fin nP → ℕ) (tol : ℚ) (max_iter : ℕ) (st : EMState nP nK)
    (h : st.old = none) (hit : st.iteration + 1 ≤ max_iter) :
    (run_loop AM counts gold tol max_iter st).iteration ≤ max_iter + 1 := by
  rw [run_loop.eq_def]
  by_cases hab : calc_likelihood_aborts counts (class_marginals st.posterior)
      (error_rates AM counts st.posterior) = true
  · rw [if_pos hab]
    show st.iteration + 1 ≤ max_iter + 1
    omega
  · rw [if_neg hab, if_neg (by rw [h]; simp [conv_check])]
    exact run_loop_iteration_le AM counts gold tol max_iter _ rfl hit

theorem run_loop_none_two {nP nK : ℕ} (AM : ℕ) (counts : Fin nP → Fin nK → Fin 2 → ℕ)
    (gold : Fin nP → ℕ) (tol : ℚ) (max_iter : ℕ) (st : EMState nP nK)
    (h : st.old = none)
    (hab : calc_likelihood_aborts counts (class_marginals st.posterior)
      (error_rates AM counts st.posterior) = false) :
    st.iteration + 2 ≤ (run_loop AM counts gold tol max_iter st).iteration := by
  rw [run_loop.eq_def]
  rw [if_neg (by rw [hab]; simp), if_neg (by rw [h]; simp [conv_check])]
  have hlt : st.iteration + 1 <
      (run_loop AM counts gold tol max_iter
        ⟨st.iteration + 1,
          some (class_marginals st.posterior, error_rates AM counts st.posterior),
          e_step AM counts gold (class_marginals st.posterior)
            (error_rates AM counts st.posterior), false⟩).iteration :=
    run_loop_iteration_lt AM counts gold tol max_iter
      ⟨st.iteration + 1,
        some (class_marginals st.posterior, error_rates AM counts st.posterior),
        e_step AM counts gold (class_marginals st.posterior)
          (error_rates AM counts st.posterior), false⟩
  omega

/-- C8: the EM loop always terminates (it is a total function here, defined
by well-founded recursion on the iteration bound), and starting from the
initial state (iteration 0, no previous parameters) it executes its body —
each execution increments the iteration counter exactly once — at most
`max_iter + 1` times, for any `max_iter ≥ 1` (in particular for the default
100): the convergence test stops it when both parameter deltas are below
`tol`, and the `iteration > max_iter` test stops it unconditionally. -/
theorem run_terminates_within_bound {nP nK : ℕ} (AM : ℕ)
    (counts : Fin nP → Fin nK → Fin 2 → ℕ) (gold : Fin nP → ℕ)
    (tol : ℚ) (max_iter : ℕ) (hmi : 1 ≤ max_iter) :
    (run_em AM counts gold tol max_iter : EMState nP nK).iteration ≤ max_iter + 1 := by
  unfold run_em
  exact run_loop_none_le AM counts gold tol max_iter _ rfl
    (show 0 + 1 ≤ max_iter by omega)

/-- Witness for C8 at a concrete input with the default bound 100. -/
theorem run_terminates_within_bound_witness :
    1 ≤ 100 ∧
    (run_em 1 exCounts0 exGold (1/100000) 100 : EMState 1 1).iteration ≤ 100 + 1 :=
  ⟨by decide, run_terminates_within_bound 1 exCounts0 exGold (1/100000) 100 (by decide)⟩

/-- C10, amended: the convergence comparison is skipped on the first
iteration because no previous marginals exist, so the loop's own exit tests
can never stop it after one iteration: provided the first iteration's
likelihood check does not hit the fatal exit (the one remaining
first-iteration exit, excluded by the counterexample's input), at least two
full M-step/E-step iterations execute — for every tolerance, in particular
when the parameter deltas are already below it. -/
theorem run_at_least_two_iterations {nP nK : ℕ} (AM : ℕ)
    (counts : Fin nP → Fin nK → Fin 2 → ℕ) (gold : Fin nP → ℕ)
    (tol : ℚ) (max_iter : ℕ)
    (h : calc_likelihood_aborts counts
      (class_marginals (init_patient_classes AM counts gold))
      (error_rates AM counts (init_patient_classes AM counts gold)) = false) :
    2 ≤ (run_em AM counts gold tol max_iter : EMState nP nK).iteration := by
  unfold run_em
  show (0 : ℕ) + 2 ≤ _
  exact run_loop_none_two AM counts gold tol max_iter
    ⟨0, none, init_patient_classes AM counts gold, false⟩ rfl h

/-- Witness for C10: one patient with two class-0 observations,
`AM_noise = 1`, tolerance far above the (zero) first-iteration deltas. -/
theorem run_at_least_two_iterations_witness :
    (calc_likelihood_aborts exCounts0
      (class_marginals (init_patient_classes 1 exCounts0 exGold))
      (error_rates 1 exCounts0 (init_patient_classes 1 exCounts0 exGold)) = false) ∧
    2 ≤ (run_em 1 exCounts0 exGold (1/100000) 100 : EMState 1 1).iteration := by
  have h0 : init_patient_classes 1 exCounts0 exGold 0 0 = 1 := by
    unfold init_patient_classes blindspot response_sums
    norm_num [Fin.sum_univ_two, Fin.sum_univ_one, exCounts0, exGold]
  have h1 : init_patient_classes 1 exCounts0 exGold 0 1 = 0 := by
    unfold init_patient_classes blindspot response_sums
    norm_num [Fin.sum_univ_two, Fin.sum_univ_one, exCounts0, exGold]
  have hcm0 : class_marginals (init_patient_classes 1 exCounts0 exGold) 0 = 1 := by
    unfold class_marginals
    rw [Fin.sum_univ_one, h0]
    norm_num
  have hcm1 : class_marginals (init_patient_classes 1 exCounts0 exGold) 1 = 0 := by
    unfold class_marginals
    rw [Fin.sum_univ_one, h1]
    norm_num
  have her00 : ∀ l, error_rates 1 exCounts0 (init_patient_classes 1 exCounts0 exGold) 0 0 l =
      if l = 0 then 1 else 0 := by
    intro l
    unfold error_rates error_rates_dot
    norm_num [Fin.sum_univ_two, Fin.sum_univ_one, h0, exCounts0]
    fin_cases l <;> norm_num
  have her01 : ∀ l, error_rates 1 exCounts0 (init_patient_classes 1 exCounts0 exGold) 0 1 l =
      0 := by
    intro l
    unfold error_rates error_rates_dot
    norm_num [Fin.sum_univ_two, Fin.sum_univ_one, h1, exCounts0]
  have hL : patient_likelihood exCounts0
      (class_marginals (init_patient_classes 1 exCounts0 exGold))
      (error_rates 1 exCounts0 (init_patient_classes 1 exCounts0 exGold)) 0 = 1 := by
    unfold patient_likelihood
    rw [Fin.sum_univ_two]
    norm_num [Fin.prod_univ_one, Fin.prod_univ_two, hcm0, hcm1, her00, her01, exCounts0]
  have hab : calc_likelihood_aborts exCounts0
      (class_marginals (init_patient_classes 1 exCounts0 exGold))
      (error_rates 1 exCounts0 (init_patient_classes 1 exCounts0 exGold)) = false := by
    unfold calc_likelihood_aborts
    rw [decide_eq_false_iff_not]
    rintro ⟨i, hi⟩
    rw [Fin.fin_one_eq_zero i, hL] at hi
    norm_num at hi
  exact ⟨hab, run_at_least_two_iterations 1 exCounts0 exGold (1/100000) 100 hab⟩

theorem run_loop_abort_step {nP nK : ℕ} (AM : ℕ) (counts : Fin nP → Fin nK → Fin 2 → ℕ)
    (gold : Fin nP → ℕ) (tol : ℚ) (max_iter : ℕ) (st : EMState nP nK)
    (hab : calc_likelihood_aborts counts (class_marginals st.posterior)
      (error_rates AM counts st.posterior) = true) :
    run_loop AM counts gold tol max_iter st =
      ⟨st.iteration + 1, st.old,
        e_step AM counts gold (class_marginals st.posterior)
          (error_rates AM counts st.posterior), true⟩ := by
  rw [run_loop.eq_def, if_pos hab]

/-- C10 counterexample: a run on one patient with no observations
(`AM_noise = 1`, default tolerance and bound) hits the fatal likelihood
exit during its first iteration — the initializer row is all-zero, so the
first M-step yields zero marginals and the patient's total likelihood is
zero — and therefore performs exactly one M-step/E-step iteration, not two. -/
theorem run_single_iteration_abort_counterexample :
    (run_em 1 exCountsNone exGold (1/100000) 100 : EMState 1 1).iteration = 1 ∧
    (run_em 1 exCountsNone exGold (1/100000) 100 : EMState 1 1).aborted = true ∧
    ¬ 2 ≤ (run_em 1 exCountsNone exGold (1/100000) 100 : EMState 1 1).iteration := by
  have hcm : ∀ j, class_marginals (init_patient_classes 1 exCountsNone exGold) j = 0 := by
    intro j
    unfold class_marginals init_patient_classes blindspot response_sums
    norm_num [Fin.sum_univ_one, Fin.sum_univ_two, exCountsNone, exGold]
  have hL : patient_likelihood exCountsNone
      (class_marginals (init_patient_classes 1 exCountsNone exGold))
      (error_rates 1 exCountsNone (init_patient_classes 1 exCountsNone exGold)) 0 = 0 := by
    unfold patient_likelihood
    rw [Fin.sum_univ_two, hcm 0, hcm 1]
    ring
  have hab : calc_likelihood_aborts exCountsNone
      (class_marginals (init_patient_classes 1 exCountsNone exGold))
      (error_rates 1 exCountsNone (init_patient_classes 1 exCountsNone exGold)) = true := by
    unfold calc_likelihood_aborts
    rw [decide_eq_true_eq]
    exact ⟨0, le_of_eq hL⟩
  have hrun : (run_em 1 exCountsNone exGold (1/100000) 100 : EMState 1 1) =
      ⟨0 + 1, none,
        e_step 1 exCountsNone exGold
          (class_marginals (init_patient_classes 1 exCountsNone exGold))
          (error_rates 1 exCountsNone (init_patient_classes 1 exCountsNone exGold)),
        true⟩ := by
    unfold run_em
    exact run_loop_abort_step 1 exCountsNone exGold (1/100000) 100
      ⟨0, none, init_patient_classes 1 exCountsNone exGold, false⟩ hab
  refine ⟨?_, ?_, ?_⟩
  · rw [hrun]
  · rw [hrun]
  · rw [hrun]
    norm_num

end DawidSkene
